import Mathlib

/-!
Verification of the CSR sparse-matrix core of dgl (src/include/dgl/aten/csr.h).

The data model and every operation whose body appears in the header are
translated directly from the source.  Operations that the header only
declares (their bodies live outside this repository) are modelled from the
specification's words; each such definition says so in its doc comment.

Machine integers (int64_t) are modelled as Int; index arrays (IdArray /
NDArray) as lists of Int together with an element-type width and a
device/location tag; the dmlc byte stream as a list of tagged stream items.
-/

/-- An index array. Modelled from the spec: the buffer/device collaborator of
the core is a reference-counted buffer carrying an element-type descriptor
(`bits`) and a device/location tag (`ctx`); its integer contents are
`values`. -/
structure IdArray where
  values : List Int
  bits : Nat
  ctx : Nat
deriving DecidableEq

/-- Modelled from the spec: a null array is an array with no elements;
`data` being null means "no data array is present" (spec 4.2 HasData). -/
def IsNullArray (a : IdArray) : Bool :=
  a.values.isEmpty

/-- Modelled from the spec: NullArray() produces an empty array (default
64-bit elements, default location). -/
def NullArray : IdArray :=
  ⟨[], 64, 0⟩

/-- Modelled from the spec: a default-constructed (unset) array holds no
buffer at all. -/
def UnsetArray : IdArray :=
  ⟨[], 0, 0⟩

/-- Modelled from the spec (error-handling design, invariant 2): the element
type must be able to represent values up to max(num_rows, num_cols); a
signed element type of width `bits` represents values up to 2^(bits-1)-1. -/
def noOverflow (bits : Nat) (v : Int) : Bool :=
  decide (v ≤ 2 ^ (bits - 1) - 1)

/-- The CSR matrix itself, from struct CSRMatrix of the source: dense shape
`num_rows`/`num_cols` (int64_t), index arrays `indptr`/`indices`, optional
data array `data`, and the `sorted` flag. -/
structure CSRMatrix where
  num_rows : Int
  num_cols : Int
  indptr : IdArray
  indices : IdArray
  data : IdArray
  sorted : Bool
deriving DecidableEq

/-- CheckValidity, from the source: indptr and indices share dtype and
context; so does data when it is not null; the dtype does not overflow for
num_rows and num_cols; and indptr has shape num_rows + 1.  (The CHECK_*
macros themselves are external to this repository and are modelled from the
spec's invariant list.) -/
def CSRMatrix.CheckValidity (m : CSRMatrix) : Bool :=
  (m.indptr.bits == m.indices.bits) &&
  (m.indptr.ctx == m.indices.ctx) &&
  (IsNullArray m.data ||
    ((m.indptr.bits == m.data.bits) && (m.indptr.ctx == m.data.ctx))) &&
  noOverflow m.indptr.bits m.num_rows &&
  noOverflow m.indptr.bits m.num_cols &&
  ((m.indptr.values.length : Int) == m.num_rows + 1)

/-- The validating constructor of CSRMatrix, from the source: stores the
fields and runs CheckValidity; a CHECK failure is fatal, modelled as none. -/
def mkCSRMatrix (nrows ncols : Int) (parr iarr darr : IdArray)
    (sorted_flag : Bool) : Option CSRMatrix :=
  let m : CSRMatrix := ⟨nrows, ncols, parr, iarr, darr, sorted_flag⟩
  if m.CheckValidity then some m else none

/-- The default constructor of CSRMatrix, from the source: `CSRMatrix() =
default` with field initialisers num_rows = 0, num_cols = 0, sorted = false
and default-constructed (unset) arrays; no validity check runs. -/
def defaultCSRMatrix : CSRMatrix :=
  ⟨0, 0, UnsetArray, UnsetArray, UnsetArray, false⟩

/-- CSRHasData, from the source: whether the matrix carries a data array. -/
def CSRHasData (csr : CSRMatrix) : Bool :=
  !(IsNullArray csr.data)

/-- One item of the dmlc stream. Modelled from the spec: the byte-stream
collaborator writes/reads typed records (a uint64, an int64, a whole array,
a bool) in sequence. -/
inductive SItem where
  | u64 : Nat → SItem
  | i64 : Int → SItem
  | arr : IdArray → SItem
  | boolVal : Bool → SItem
deriving DecidableEq

/-- The magic constant kDGLSerialize_AtenCsrMatrixMagic, from the source. -/
def kDGLSerialize_AtenCsrMatrixMagic : Nat :=
  0xDD6cd31205dff127

/-- Save, from the source: writes the magic constant, num_cols, num_rows,
indptr, indices, data and sorted, in that order, to the stream. -/
def CSRMatrix.Save (m : CSRMatrix) : List SItem :=
  [SItem.u64 kDGLSerialize_AtenCsrMatrixMagic,
   SItem.i64 m.num_cols,
   SItem.i64 m.num_rows,
   SItem.arr m.indptr,
   SItem.arr m.indices,
   SItem.arr m.data,
   SItem.boolVal m.sorted]

/-- Load, from the source: reads the magic number first and CHECKs it
against kDGLSerialize_AtenCsrMatrixMagic before anything else is read; then
reads num_cols, num_rows, indptr, indices, data, sorted in order, and
finally re-runs CheckValidity.  A failed CHECK (bad magic, short stream,
wrongly-typed field, invalid matrix) is fatal, modelled as none. -/
def CSRMatrix.Load (st : List SItem) : Option CSRMatrix :=
  match st with
  | SItem.u64 w :: rest =>
    if w = kDGLSerialize_AtenCsrMatrixMagic then
      match rest with
      | SItem.i64 ncols :: SItem.i64 nrows :: SItem.arr p :: SItem.arr i ::
          SItem.arr d :: SItem.boolVal srt :: _ =>
        let m : CSRMatrix := ⟨nrows, ncols, p, i, d, srt⟩
        if m.CheckValidity then some m else none
      | _ => none
    else none
  | _ => none

/-- Array CopyTo. Modelled from the spec: copying a buffer to a location
preserves its contents and element type and retargets its location tag. -/
def IdArray.CopyTo (a : IdArray) (c : Nat) : IdArray :=
  ⟨a.values, a.bits, c⟩

/-- CopyTo, from the source: returns the matrix itself when the target
context equals indptr's context, otherwise rebuilds the matrix (through the
validating constructor) from copies of indptr and indices, a copy of data
unless data is null, and the same shape and sorted flag. -/
def CSRMatrix.CopyTo (m : CSRMatrix) (c : Nat) : Option CSRMatrix :=
  if c = m.indptr.ctx then some m
  else
    mkCSRMatrix m.num_rows m.num_cols (m.indptr.CopyTo c) (m.indices.CopyTo c)
      (if IsNullArray m.data then m.data else m.data.CopyTo c) m.sorted

/-! ## Derived views of a matrix -/

/-- Start offset of row `r` in indices/data: indptr[r]. -/
def rowStart (m : CSRMatrix) (r : Int) : Nat :=
  (m.indptr.values.getD r.toNat 0).toNat

/-- CSRGetRowNNZ. Modelled from the spec: the nnz of row `r` is
indptr[r+1] - indptr[r]. -/
def CSRGetRowNNZ (m : CSRMatrix) (r : Int) : Nat :=
  ((m.indptr.values.getD (r.toNat + 1) 0) - (m.indptr.values.getD r.toNat 0)).toNat

/-- Data value stored at position `j`: data[j], or `j` itself when the data
array is absent (spec: an absent data array is logically the identity
sequence 0..nnz-1). -/
def effDataAt (m : CSRMatrix) (j : Nat) : Int :=
  if IsNullArray m.data then (j : Int) else m.data.values.getD j 0

/-- The data values of the matrix as a list: data, or the identity sequence
when data is absent. -/
def effData (m : CSRMatrix) : List Int :=
  if IsNullArray m.data then
    (List.range m.indices.values.length).map (fun j => (j : Int))
  else m.data.values

/-- The data ids of all entries of row `r` whose column index equals `c`,
in storage order (multigraph duplicates included). -/
def rowMatchData (m : CSRMatrix) (r c : Int) : List Int :=
  ((List.range (CSRGetRowNNZ m r)).filter
      (fun p => m.indices.values.getD (rowStart m r + p) 0 == c)).map
    (fun p => effDataAt m (rowStart m r + p))

/-- Broadcasting of a batched (row, col) query. Modelled from the spec: if
either the row sequence or the column sequence has length 1 it is broadcast
against the other's length; otherwise they pair up elementwise. -/
def broadcastPairs (rows cols : List Int) : List (Int × Int) :=
  match rows, cols with
  | [r], cs => cs.map (fun c => (r, c))
  | rs, [c] => rs.map (fun r => (r, c))
  | rs, cs => rs.zip cs

/-- CSRGetData. Modelled from the spec: one data value per (broadcast) query
pair; a pair with no matching entry yields the sentinel -1; a pair with
matches yields exactly one of the matching data ids (this model picks the
first match in storage order, a deterministic instance of the source's
unspecified choice). -/
def CSRGetData (m : CSRMatrix) (rows cols : List Int) : List Int :=
  (broadcastPairs rows cols).map
    (fun p => (rowMatchData m p.1 p.2).head?.getD (-1))

/-- CSRGetDataAndIndices. Modelled from the spec: for each (broadcast) query
pair every matching entry produces one output triple (row, col, data id);
pairs without a match are omitted.  Returned as the three parallel arrays
{rows, cols, data}. -/
def CSRGetDataAndIndices (m : CSRMatrix) (rows cols : List Int) :
    List Int × List Int × List Int :=
  let triples :=
    (broadcastPairs rows cols).flatMap
      (fun p => (rowMatchData m p.1 p.2).map (fun d => (p.1, p.2, d)))
  (triples.map (fun t => t.1), triples.map (fun t => t.2.1),
   triples.map (fun t => t.2.2))

/-- CSRGetAllData, from the source: builds the singleton query arrays [row]
and [col], calls CSRGetDataAndIndices, and returns the third result (the
data array). -/
def CSRGetAllData (m : CSRMatrix) (row col : Int) : List Int :=
  (CSRGetDataAndIndices m [row] [col]).2.2

/-! ## List-shape infrastructure (prefix sums, row slicing) -/

/-- Consecutive gaps of an integer sequence, clamped at zero: the row
degrees described by an indptr array. -/
def gaps : List Int → List Nat
  | a :: b :: rest => (b - a).toNat :: gaps (b :: rest)
  | _ => []

/-- Cut a list into consecutive chunks of the given lengths (trailing
elements beyond the lengths' total are dropped). -/
def chunksBy : List Nat → List α → List (List α)
  | [], _ => []
  | n :: ns, xs => xs.take n :: chunksBy ns (xs.drop n)

/-- Exclusive prefix sums: the indptr array describing chunks of the given
lengths. -/
def prefixSums : List Nat → List Int
  | [] => [0]
  | n :: ns => 0 :: (prefixSums ns).map (fun x => x + (n : Int))

/-- Whether an integer sequence is non-decreasing. -/
def nondecreasing : List Int → Bool
  | a :: b :: rest => decide (a ≤ b) && nondecreasing (b :: rest)
  | _ => true

/-- The rows of the matrix as chunks of (column index, data id) pairs, cut
out of indices/effData by the indptr gaps. -/
def rowChunksPairs (m : CSRMatrix) : List (List (Int × Int)) :=
  chunksBy (gaps m.indptr.values) (m.indices.values.zip (effData m))

/-- Label consecutive chunks with consecutive row ids, flattening to (row,
col, data) triples. -/
def labelChunks : Int → List (List (Int × Int)) → List (Int × Int × Int)
  | _, [] => []
  | r, ch :: rest => ch.map (fun p => (r, p.1, p.2)) ++ labelChunks (r + 1) rest

/-- All stored entries of the matrix as (row, col, data id) triples in
storage order. -/
def entriesOf (m : CSRMatrix) : List (Int × Int × Int) :=
  labelChunks 0 (rowChunksPairs m)

/-- Validity of a CSR matrix as the spec states it (testable properties,
section 3): the constructor checks pass, the shape is non-negative, indptr
is non-decreasing, starts at 0 and ends at len(indices), data when present
is parallel to indices, and every column index is in range. -/
def wfCSR (m : CSRMatrix) : Bool :=
  m.CheckValidity &&
  decide (0 ≤ m.num_rows) &&
  decide (0 ≤ m.num_cols) &&
  nondecreasing m.indptr.values &&
  (m.indptr.values.head? == some 0) &&
  (m.indptr.values.getLast? == some (m.indices.values.length : Int)) &&
  (IsNullArray m.data || (m.data.values.length == m.indices.values.length)) &&
  m.indices.values.all (fun c => decide (0 ≤ c) && decide (c < m.num_cols))

/-! ## Sort -/

/-- Comparison of (column, data) pairs by column only. -/
def pairLE (a b : Int × Int) : Prop :=
  a.1 ≤ b.1

instance : DecidableRel pairLE :=
  fun a b => inferInstanceAs (Decidable (a.1 ≤ b.1))

instance : IsTotal (Int × Int) pairLE :=
  ⟨fun a b => le_total a.1 b.1⟩

instance : IsTrans (Int × Int) pairLE :=
  ⟨fun _ _ _ h1 h2 => le_trans h1 h2⟩

/-- CSRSort_. Modelled from the spec: a stable ascending reordering of each
row's column indices; the paired data entries (if present) are permuted
identically; indptr is untouched; only indices and data are replaced. -/
def CSRSort_ (m : CSRMatrix) : CSRMatrix :=
  if IsNullArray m.data then
    { m with
      indices := ⟨((chunksBy (gaps m.indptr.values) m.indices.values).map
        (List.insertionSort (fun a b : Int => a ≤ b))).flatten,
        m.indices.bits, m.indices.ctx⟩ }
  else
    let sc := (chunksBy (gaps m.indptr.values)
      (m.indices.values.zip m.data.values)).map (List.insertionSort pairLE)
    { m with
      indices := ⟨(sc.map (List.map Prod.fst)).flatten,
        m.indices.bits, m.indices.ctx⟩,
      data := ⟨(sc.map (List.map Prod.snd)).flatten,
        m.data.bits, m.data.ctx⟩ }

/-- CSRSort, from the source: returns the input unchanged when its sorted
flag is already set; otherwise rebuilds the matrix (through the validating
constructor, cloning indices and, when present, data) and sorts it in
place. -/
def CSRSort (csr : CSRMatrix) : Option CSRMatrix :=
  if csr.sorted then some csr
  else
    (mkCSRMatrix csr.num_rows csr.num_cols csr.indptr csr.indices csr.data
      csr.sorted).map CSRSort_

/-! ## Transpose -/

/-- Consecutive integers a, a+1, ..., a+n-1. -/
def intRangeFrom (a : Int) : Nat → List Int
  | 0 => []
  | n + 1 => a :: intRangeFrom (a + 1) n

/-- CSRTranspose. Modelled from the spec: swaps the row/column roles via a
counting-sort-style bucketing pass — every stored entry (row, col, data) is
put into the bucket of its column, buckets in column order, as the pair
(old row, data id). -/
def transposeBuckets (m : CSRMatrix) : List (List (Int × Int)) :=
  (intRangeFrom 0 m.num_cols.toNat).map
    (fun c => ((entriesOf m).filter (fun e => e.2.1 == c)).map
      (fun e => (e.1, e.2.2)))

/-- CSRTranspose proper: the new indptr is the prefix sum of the bucket
sizes, the new indices/data are the concatenated buckets. -/
def CSRTranspose (m : CSRMatrix) : CSRMatrix :=
  ⟨m.num_cols, m.num_rows,
   ⟨prefixSums ((transposeBuckets m).map List.length),
     m.indptr.bits, m.indptr.ctx⟩,
   ⟨((transposeBuckets m).map (List.map Prod.fst)).flatten,
     m.indices.bits, m.indices.ctx⟩,
   ⟨((transposeBuckets m).map (List.map Prod.snd)).flatten,
     m.indices.bits, m.indices.ctx⟩,
   false⟩

/-- Swap the row and column components of an entry triple. -/
def swapRC (e : Int × Int × Int) : Int × Int × Int :=
  (e.2.1, e.1, e.2.2)

/-! ## Row-wise sampling -/

/-- A COO matrix, reduced to what the sampling routines produce. Modelled
from the spec: the COOMatrix collaborator stores shape plus parallel row,
col and data sequences. -/
structure COOMatrix where
  num_rows : Int
  num_cols : Int
  row : List Int
  col : List Int
  data : List Int
deriving DecidableEq

/-- Draw up to `k` distinct positions from a pool, without replacement, the
choice at each step driven by the oracle `rng`.  Stops when the pool is
exhausted. -/
def drawWoR (rng : Nat → Nat) : Nat → List Nat → List Nat
  | 0, _ => []
  | _ + 1, [] => []
  | k + 1, p :: ps =>
    let pool := p :: ps
    let j := rng k % pool.length
    pool.getD j 0 :: drawWoR rng k (pool.eraseIdx j)

/-- Positions sampled from a row of degree `d`. Modelled from the spec: with
replacement, `k` independent draws; without replacement, all `d` positions
when the degree is at most the request, else `k` distinct positions.  The
random choice (including any weighting by the optional probability array,
which only shapes the distribution) is abstracted into the oracle `rng`. -/
def samplePositions (rng : Nat → Nat) (replace : Bool) (k d : Nat) : List Nat :=
  if replace then
    if d = 0 then [] else (List.range k).map (fun i => rng i % d)
  else
    if d ≤ k then List.range d
    else drawWoR rng k (List.range d)

/-- All entries of row `r` as (column id, data id) pairs, in storage
order. -/
def rowEntryPairs (m : CSRMatrix) (r : Int) : List (Int × Int) :=
  (List.range (CSRGetRowNNZ m r)).map
    (fun p => (m.indices.values.getD (rowStart m r + p) 0,
      effDataAt m (rowStart m r + p)))

/-- CSRRowWiseSampling. Modelled from the spec: for each requested row
independently, sample `num_samples` entries of that row (all of them when
sampling without replacement from a row of smaller degree), and emit the
picked (row, col, data) triples as a COO matrix whose row values repeat the
requesting row id once per sample. -/
def CSRRowWiseSampling (rng : Int → Nat → Nat) (m : CSRMatrix)
    (rows : List Int) (num_samples : Nat) (replace : Bool) : COOMatrix :=
  let groups := rows.map (fun r =>
    (samplePositions (rng r) replace num_samples (CSRGetRowNNZ m r)).map
      (fun p => (r, m.indices.values.getD (rowStart m r + p) 0,
        effDataAt m (rowStart m r + p))))
  ⟨m.num_rows, m.num_cols,
   (groups.map (List.map (fun e => e.1))).flatten,
   (groups.map (List.map (fun e => e.2.1))).flatten,
   (groups.map (List.map (fun e => e.2.2))).flatten⟩

/-- A matrix that the constructor accepts although its indptr is decreasing
and does not start at 0. -/
def badCsr : CSRMatrix :=
  ⟨1, 1, ⟨[1, 0], 64, 0⟩, ⟨[], 64, 0⟩, ⟨[], 64, 0⟩, false⟩

/-- A small valid, unsorted matrix used to instantiate the theorems. -/
def exampleCsr : CSRMatrix :=
  ⟨2, 3, ⟨[0, 2, 3], 64, 0⟩, ⟨[2, 0, 1], 64, 0⟩, ⟨[], 64, 0⟩, false⟩

/-- The sampling example matrix of the source's own doc comment (csr.h
lines 333-346): indptr [0,2,3,3,5], indices [0,1,1,2,3], data
[2,3,0,1,4]. -/
def docExampleCsr : CSRMatrix :=
  ⟨4, 4, ⟨[0, 2, 3, 3, 5], 64, 0⟩, ⟨[0, 1, 1, 2, 3], 64, 0⟩,
    ⟨[2, 3, 0, 1, 4], 64, 0⟩, false⟩


/-! ## Helper lemmas on construction and loading -/

/-- Any matrix the validating constructor returns passed CheckValidity. -/
theorem mk_some_checkValidity {nr nc : Int} {p i d : IdArray} {s : Bool}
    {m : CSRMatrix} (h : mkCSRMatrix nr nc p i d s = some m) :
    m.CheckValidity = true := by
  simp only [mkCSRMatrix] at h
  split at h
  · cases h
    assumption
  · cases h

/-- Any matrix Load returns passed CheckValidity. -/
theorem load_some_checkValidity {st : List SItem} {m : CSRMatrix}
    (h : CSRMatrix.Load st = some m) : m.CheckValidity = true := by
  simp only [CSRMatrix.Load] at h
  split at h
  case _ w rest =>
    split at h
    · split at h
      · split at h
        · cases h
          assumption
        · cases h
      · cases h
    · cases h
  · cases h

/-- CheckValidity forces indptr to have length num_rows + 1. -/
theorem checkValidity_indptr_length {m : CSRMatrix}
    (h : m.CheckValidity = true) :
    (m.indptr.values.length : Int) = m.num_rows + 1 := by
  simp only [CSRMatrix.CheckValidity, Bool.and_eq_true, beq_iff_eq] at h
  exact h.2


/-- C1: Save writes the fixed-order tagged record magic, num_cols, num_rows,
indptr, indices, data, sorted — exactly this field order, columns before
rows. -/
theorem csrSave_field_order (m : CSRMatrix) :
    m.Save = [SItem.u64 kDGLSerialize_AtenCsrMatrixMagic,
      SItem.i64 m.num_cols, SItem.i64 m.num_rows, SItem.arr m.indptr,
      SItem.arr m.indices, SItem.arr m.data, SItem.boolVal m.sorted] :=
  rfl

/-- C2 counterexample: construction succeeds on an indptr that is decreasing
and does not start at 0, so "construction fails fatally when non-decrease /
starts-at-0 are violated" is false on the code. -/
theorem construction_skips_indptr_content_checks :
    mkCSRMatrix 1 1 ⟨[1, 0], 64, 0⟩ ⟨[], 64, 0⟩ ⟨[], 64, 0⟩ false = some badCsr ∧
    badCsr.indptr.values.head? ≠ some 0 ∧
    nondecreasing badCsr.indptr.values = false := by
  decide

/-- C2 amended: every successfully constructed or deserialized matrix has
indptr of length num_rows + 1 (the shape check that construction and Load
do run); the remaining conditions of the claim are not checked. -/
theorem constructed_matrix_indptr_length :
    (∀ (nr nc : Int) (p i d : IdArray) (s : Bool) (m : CSRMatrix),
        mkCSRMatrix nr nc p i d s = some m →
        (m.indptr.values.length : Int) = m.num_rows + 1) ∧
    (∀ (st : List SItem) (m : CSRMatrix), CSRMatrix.Load st = some m →
        (m.indptr.values.length : Int) = m.num_rows + 1) :=
  ⟨fun _ _ _ _ _ _ _ h => checkValidity_indptr_length (mk_some_checkValidity h),
   fun _ _ h => checkValidity_indptr_length (load_some_checkValidity h)⟩

/-- C2 amended, instantiated: the example matrix constructs and its indptr
has length num_rows + 1. -/
theorem constructed_matrix_indptr_length_example :
    (exampleCsr.indptr.values.length : Int) = exampleCsr.num_rows + 1 :=
  constructed_matrix_indptr_length.1 2 3 ⟨[0, 2, 3], 64, 0⟩ ⟨[2, 0, 1], 64, 0⟩
    ⟨[], 64, 0⟩ false exampleCsr (by decide)

/-- C7: Load rejects a wrong magic value without looking at any later field
(the result is none whatever the rest of the stream holds), and any matrix
it does return passed the same CheckValidity as construction. -/
theorem csrLoad_magic_then_validity :
    (∀ (w : Nat) (rest : List SItem), w ≠ kDGLSerialize_AtenCsrMatrixMagic →
        CSRMatrix.Load (SItem.u64 w :: rest) = none) ∧
    (∀ (st : List SItem) (m : CSRMatrix), CSRMatrix.Load st = some m →
        m.CheckValidity = true) :=
  ⟨fun _ _ hw => by simp [CSRMatrix.Load, hw],
   fun _ _ h => load_some_checkValidity h⟩

/-- C7, instantiated: a stream whose magic is 0 is rejected, and a loaded
matrix passed CheckValidity. -/
theorem csrLoad_magic_then_validity_example :
    CSRMatrix.Load [SItem.u64 0, SItem.i64 3, SItem.i64 2] = none ∧
    exampleCsr.CheckValidity = true :=
  ⟨csrLoad_magic_then_validity.1 0 [SItem.i64 3, SItem.i64 2] (by decide),
   csrLoad_magic_then_validity.2 exampleCsr.Save exampleCsr (by decide)⟩

/-- C10: the default-constructed matrix is a plain value no validity check
ever ran on: shape 0 by 0, sorted false, all three arrays null, and its
indptr does not have length num_rows + 1 (indeed CheckValidity would
fail). -/
theorem defaultCSRMatrix_unchecked :
    defaultCSRMatrix.num_rows = 0 ∧ defaultCSRMatrix.num_cols = 0 ∧
    defaultCSRMatrix.sorted = false ∧
    IsNullArray defaultCSRMatrix.indptr = true ∧
    IsNullArray defaultCSRMatrix.indices = true ∧
    IsNullArray defaultCSRMatrix.data = true ∧
    (defaultCSRMatrix.indptr.values.length : Int) ≠
      defaultCSRMatrix.num_rows + 1 ∧
    defaultCSRMatrix.CheckValidity = false := by
  decide

/-- C6: CopyTo returns the matrix itself when the target location equals the
current one, and otherwise a matrix with the same shape, sorted flag and
array contents, whose data array is null exactly when the original's is,
now living at the target location. -/
theorem csrCopyTo_spec (m : CSRMatrix) (c : Nat) (h : m.CheckValidity = true) :
    (c = m.indptr.ctx → m.CopyTo c = some m) ∧
    (c ≠ m.indptr.ctx → ∃ m2, m.CopyTo c = some m2 ∧
      m2.num_rows = m.num_rows ∧ m2.num_cols = m.num_cols ∧
      m2.sorted = m.sorted ∧ m2.indptr.values = m.indptr.values ∧
      m2.indices.values = m.indices.values ∧ m2.data.values = m.data.values ∧
      IsNullArray m2.data = IsNullArray m.data ∧ m2.indptr.ctx = c) := by
  constructor
  · intro hc
    simp [CSRMatrix.CopyTo, hc]
  · intro hc
    simp only [CSRMatrix.CheckValidity, Bool.and_eq_true, Bool.or_eq_true,
      beq_iff_eq] at h
    obtain ⟨⟨⟨⟨⟨hbits, hctx⟩, hdata⟩, hov1⟩, hov2⟩, hlen⟩ := h
    have hov1' : noOverflow m.indices.bits m.num_rows = true := by
      rw [← hbits]
      exact hov1
    have hov2' : noOverflow m.indices.bits m.num_cols = true := by
      rw [← hbits]
      exact hov2
    have hv : (⟨m.num_rows, m.num_cols, m.indptr.CopyTo c, m.indices.CopyTo c,
        if IsNullArray m.data then m.data else m.data.CopyTo c, m.sorted⟩ :
        CSRMatrix).CheckValidity = true := by
      by_cases hd : IsNullArray m.data
      · simp [CSRMatrix.CheckValidity, IdArray.CopyTo, hd, hbits, hov1',
          hov2', hlen]
      · rcases hdata with hnull | ⟨hb2, hc2⟩
        · exact absurd hnull hd
        · have hb2' : m.indices.bits = m.data.bits := by
            rw [← hbits]
            exact hb2
          have hovd1 : noOverflow m.data.bits m.num_rows = true := by
            rw [← hb2]
            exact hov1
          have hovd2 : noOverflow m.data.bits m.num_cols = true := by
            rw [← hb2]
            exact hov2
          simp only [IsNullArray] at hd
          simp [CSRMatrix.CheckValidity, IdArray.CopyTo, IsNullArray, hd,
            hbits, hb2', hov1', hov2', hovd1, hovd2, hlen]
    refine ⟨⟨m.num_rows, m.num_cols, m.indptr.CopyTo c, m.indices.CopyTo c,
      if IsNullArray m.data then m.data else m.data.CopyTo c, m.sorted⟩,
      ?_, rfl, rfl, rfl, rfl, rfl, ?_, ?_, rfl⟩
    · simp [CSRMatrix.CopyTo, hc, mkCSRMatrix, hv]
    · by_cases hd : m.data.values = [] <;>
        simp [IsNullArray, IdArray.CopyTo, hd]
    · by_cases hd : m.data.values = [] <;>
        simp [IsNullArray, IdArray.CopyTo, hd]

/-- C6, instantiated: copying the example matrix to its own location returns
it unchanged. -/
theorem csrCopyTo_spec_example : exampleCsr.CopyTo 0 = some exampleCsr :=
  (csrCopyTo_spec exampleCsr 0 (by decide)).1 rfl

/-- C3: CSRGetData returns exactly one value per (broadcast) query pair; a
pair with no matching entry gets the sentinel -1 at its position, and a pair
with at least one match gets one of its matching data ids. -/
theorem csrGetData_one_per_pair (m : CSRMatrix) (rows cols : List Int) :
    (CSRGetData m rows cols).length = (broadcastPairs rows cols).length ∧
    List.Forall₂
      (fun p v => (rowMatchData m p.1 p.2 = [] → v = -1) ∧
        (rowMatchData m p.1 p.2 ≠ [] → v ∈ rowMatchData m p.1 p.2))
      (broadcastPairs rows cols) (CSRGetData m rows cols) := by
  constructor
  · simp [CSRGetData]
  · unfold CSRGetData
    generalize broadcastPairs rows cols = ps
    induction ps with
    | nil => exact List.Forall₂.nil
    | cons p ps ih =>
      refine List.Forall₂.cons ⟨?_, ?_⟩ ih
      · intro he
        simp [he]
      · intro hne
        cases hm : rowMatchData m p.1 p.2 with
        | nil => exact absurd hm hne
        | cons a l => simp [hm]

/-- C3, instantiated on the example matrix: a present pair yields its data
id, an absent pair yields -1. -/
theorem csrGetData_one_per_pair_example :
    CSRGetData exampleCsr [0, 0] [2, 1] = [0, -1] := by decide

/-- C9: CSRGetAllData equals the third (data) component of
CSRGetDataAndIndices on the singleton query, and that component is exactly
the list of all matching data ids of the pair (empty when there is no
match). -/
theorem csrGetAllData_refines_getDataAndIndices (m : CSRMatrix)
    (row col : Int) :
    CSRGetAllData m row col = (CSRGetDataAndIndices m [row] [col]).2.2 ∧
    CSRGetAllData m row col = rowMatchData m row col := by
  refine ⟨rfl, ?_⟩
  simp only [CSRGetAllData, CSRGetDataAndIndices, broadcastPairs,
    List.map_cons, List.map_nil, List.flatMap_cons, List.flatMap_nil,
    List.append_nil, List.map_map]
  exact List.map_id _

/-- The number of positions drawWoR returns: all of a small pool, k of a
large one. -/
theorem drawWoR_length (rng : Nat → Nat) :
    ∀ (k : Nat) (pool : List Nat),
      (drawWoR rng k pool).length = min k pool.length := by
  intro k
  induction k with
  | zero =>
    intro pool
    simp [drawWoR]
  | succ k ih =>
    intro pool
    cases pool with
    | nil => simp [drawWoR]
    | cons p ps =>
      have hj : rng k % (p :: ps).length < (p :: ps).length :=
        Nat.mod_lt _ (by simp)
      simp only [List.length_cons] at hj
      simp only [drawWoR, List.length_cons, ih]
      rw [@List.length_eraseIdx_of_lt ℕ (p :: ps) (rng k % (ps.length + 1)) hj]
      simp only [List.length_cons]
      omega

/-- Without replacement, the number of sampled positions of a row of degree
d is min k d. -/
theorem samplePositions_length_noReplace (rng : Nat → Nat) (k d : Nat) :
    (samplePositions rng false k d).length = min k d := by
  simp only [samplePositions, Bool.false_eq_true, if_false]
  by_cases hdk : d ≤ k
  · simp [hdk, Nat.min_eq_right hdk]
  · simp [hdk, drawWoR_length]

/-- drawWoR only ever picks elements of its pool. -/
theorem drawWoR_subset (rng : Nat → Nat) :
    ∀ (k : Nat) (pool : List Nat) (x : Nat),
      x ∈ drawWoR rng k pool → x ∈ pool := by
  intro k
  induction k with
  | zero =>
    intro pool x h
    cases h
  | succ k ih =>
    intro pool x h
    cases pool with
    | nil => cases h
    | cons p ps =>
      have hj : rng k % (p :: ps).length < (p :: ps).length :=
        Nat.mod_lt _ (by simp)
      simp only [drawWoR] at h
      rcases List.mem_cons.mp h with rfl | ht
      · rw [List.getD_eq_getElem?_getD, List.getElem?_eq_getElem hj,
          Option.getD_some]
        exact List.getElem_mem hj
      · exact (List.eraseIdx_sublist (p :: ps) _).subset (ih _ x ht)

/-- Without replacement, every sampled position is a position of the
row. -/
theorem samplePositions_mem_noReplace (rng : Nat → Nat) (k d : Nat) :
    ∀ p ∈ samplePositions rng false k d, p < d := by
  intro p hp
  simp only [samplePositions, Bool.false_eq_true, if_false] at hp
  by_cases hdk : d ≤ k
  · rw [if_pos hdk] at hp
    exact List.mem_range.mp hp
  · rw [if_neg hdk] at hp
    exact List.mem_range.mp (drawWoR_subset rng k (List.range d) p hp)

/-- C4: sampling without replacement emits, for each requested row in
order, a block of picked (col, data) entries of that row labelled with that
row id; the block has exactly min(num_samples, degree) entries, a row whose
degree is at most num_samples contributes all of its entries, every sample
is an actual entry of its row, and no fault is raised (the function is
total). -/
theorem csrRowWiseSampling_spec (rng : Int → Nat → Nat) (m : CSRMatrix)
    (rows : List Int) (k : Nat) :
    ∃ pick : Int → List (Int × Int),
      (CSRRowWiseSampling rng m rows k false).row =
        rows.flatMap (fun r => List.replicate (min k (CSRGetRowNNZ m r)) r) ∧
      (CSRRowWiseSampling rng m rows k false).col =
        rows.flatMap (fun r => (pick r).map (fun q => q.1)) ∧
      (CSRRowWiseSampling rng m rows k false).data =
        rows.flatMap (fun r => (pick r).map (fun q => q.2)) ∧
      ∀ r : Int,
        (pick r).length = min k (CSRGetRowNNZ m r) ∧
        (CSRGetRowNNZ m r ≤ k → pick r = rowEntryPairs m r) ∧
        ∀ q ∈ pick r, q ∈ rowEntryPairs m r := by
  refine ⟨fun r => (samplePositions (rng r) false k (CSRGetRowNNZ m r)).map
    (fun p => (m.indices.values.getD (rowStart m r + p) 0,
      effDataAt m (rowStart m r + p))), ?_, ?_, ?_, ?_⟩
  · have hgroup : ∀ r : Int,
        ((samplePositions (rng r) false k (CSRGetRowNNZ m r)).map
            (fun p => (r, m.indices.values.getD (rowStart m r + p) 0,
              effDataAt m (rowStart m r + p)))).map (fun e => e.1) =
          List.replicate (min k (CSRGetRowNNZ m r)) r := by
      intro r
      rw [List.map_map]
      rw [show ((fun e : Int × Int × Int => e.1) ∘
        (fun p => (r, m.indices.values.getD (rowStart m r + p) 0,
          effDataAt m (rowStart m r + p)))) = (fun _ => r) from rfl]
      rw [List.map_const', samplePositions_length_noReplace]
    simp only [CSRRowWiseSampling, List.map_map, List.flatMap_def]
    congr 1
    exact List.map_congr_left (fun r _ => hgroup r)
  · simp only [CSRRowWiseSampling, List.map_map, List.flatMap_def]
    congr 1
    apply List.map_congr_left
    intro r _
    simp only [Function.comp_apply]
    rw [List.map_map]
    rfl
  · simp only [CSRRowWiseSampling, List.map_map, List.flatMap_def]
    congr 1
    apply List.map_congr_left
    intro r _
    simp only [Function.comp_apply]
    rw [List.map_map]
    rfl
  · intro r
    refine ⟨?_, ?_, ?_⟩
    · rw [List.length_map, samplePositions_length_noReplace]
    · intro hdk
      simp only [samplePositions, Bool.false_eq_true, if_false]
      rw [if_pos hdk]
      rfl
    · intro q hq
      obtain ⟨p, hp, rfl⟩ := List.mem_map.mp hq
      have hpd : p < CSRGetRowNNZ m r :=
        samplePositions_mem_noReplace (rng r) k _ p hp
      exact List.mem_map.mpr ⟨p, List.mem_range.mpr hpd, rfl⟩

/-- C4, instantiated on the source's own doc example (rows [1, 3], two
samples, no replacement): row 1 has only one entry and returns it, row 3
returns both of its entries — exactly the header's depicted output. -/
theorem csrRowWiseSampling_spec_example :
    CSRRowWiseSampling (fun _ _ => 0) docExampleCsr [1, 3] 2 false =
      ⟨4, 4, [1, 3, 3], [1, 2, 3], [0, 1, 4]⟩ := by
  decide

/-! ## Chunk infrastructure -/

/-- When the lengths sum to the list's length, every chunk has exactly its
requested length. -/
theorem chunksBy_lengths :
    ∀ (ns : List Nat) (xs : List α), ns.sum = xs.length →
      (chunksBy ns xs).map List.length = ns := by
  intro ns
  induction ns with
  | nil =>
    intro xs h
    rfl
  | cons n ns ih =>
    intro xs h
    simp only [List.sum_cons] at h
    simp only [chunksBy, List.map_cons, List.length_take]
    have h1 : n ⊓ xs.length = n := by omega
    rw [h1, ih]
    simp only [List.length_drop]
    omega

/-- Cutting a flattened chunk list back at the chunk lengths recovers the
chunks. -/
theorem chunksBy_of_flatten :
    ∀ cs : List (List α), chunksBy (cs.map List.length) cs.flatten = cs := by
  intro cs
  induction cs with
  | nil => rfl
  | cons c cs ih =>
    simp only [List.map_cons, List.flatten_cons, chunksBy, List.take_left,
      List.drop_left, ih]

/-- Zipping the per-chunk first components with the per-chunk second
components recovers the flattened chunks. -/
theorem zip_flatten_fst_snd :
    ∀ cs : List (List (α × β)),
      ((cs.map (List.map Prod.fst)).flatten).zip
        ((cs.map (List.map Prod.snd)).flatten) = cs.flatten := by
  intro cs
  induction cs with
  | nil => rfl
  | cons c cs ih =>
    simp only [List.map_cons, List.flatten_cons]
    rw [List.zip_append (by simp), ih, List.zip_map']
    simp

/-- On a non-decreasing sequence the gaps sum to last minus first. -/
theorem gaps_sum_int :
    ∀ l : List Int, nondecreasing l = true →
      ∀ a b : Int, l.head? = some a → l.getLast? = some b →
        ((gaps l).sum : Int) = b - a := by
  intro l
  induction l with
  | nil =>
    intro _ a b ha
    cases ha
  | cons x xs ih =>
    intro hnd a b ha hb
    cases ha
    cases xs with
    | nil =>
      cases hb
      simp [gaps]
    | cons y ys =>
      simp only [nondecreasing, Bool.and_eq_true, decide_eq_true_eq] at hnd
      have hb2 : (y :: ys).getLast? = some b := by
        rw [← hb]
        exact (List.getLast?_cons_cons ..).symm
      have := ih hnd.2 y b rfl hb2
      simp only [gaps, List.sum_cons, Nat.cast_add]
      rw [Int.toNat_of_nonneg (by omega)]
      omega

/-- For a wf matrix the indptr gaps sum to the number of stored entries. -/
theorem wf_parts {m : CSRMatrix} (h : wfCSR m = true) :
    m.CheckValidity = true ∧ 0 ≤ m.num_rows ∧ 0 ≤ m.num_cols ∧
    nondecreasing m.indptr.values = true ∧
    m.indptr.values.head? = some 0 ∧
    m.indptr.values.getLast? = some (m.indices.values.length : Int) ∧
    (IsNullArray m.data = true ∨
      m.data.values.length = m.indices.values.length) ∧
    ∀ c ∈ m.indices.values, 0 ≤ c ∧ c < m.num_cols := by
  simp only [wfCSR, Bool.and_eq_true, Bool.or_eq_true, beq_iff_eq,
    decide_eq_true_eq, List.all_eq_true] at h
  obtain ⟨⟨⟨⟨⟨⟨⟨hcv, hr⟩, hc⟩, hnd⟩, hh⟩, hl⟩, hd⟩, hall⟩ := h
  refine ⟨hcv, hr, hc, hnd, hh, hl, hd, ?_⟩
  intro c hcmem
  have := hall c hcmem
  simpa using this

/-- The indptr gaps of a wf matrix sum to len(indices). -/
theorem wf_gaps_sum {m : CSRMatrix} (h : wfCSR m = true) :
    (gaps m.indptr.values).sum = m.indices.values.length := by
  obtain ⟨-, -, -, hnd, hh, hl, -, -⟩ := wf_parts h
  have := gaps_sum_int m.indptr.values hnd 0
    (m.indices.values.length : Int) hh hl
  omega

/-- Sorting each chunk preserves the chunk lengths. -/
theorem map_length_insertionSort {α} (r : α → α → Prop) [DecidableRel r]
    (cs : List (List α)) :
    (cs.map (List.insertionSort r)).map List.length = cs.map List.length := by
  rw [List.map_map]
  exact List.map_congr_left fun c _ => (List.perm_insertionSort r c).length_eq

/-- Re-chunking the flattened sorted chunks recovers the sorted chunks. -/
theorem chunksBy_flatten_sorted {α} (r : α → α → Prop) [DecidableRel r]
    (g : List Nat) (xs : List α) (hsum : g.sum = xs.length) :
    chunksBy g (((chunksBy g xs).map (List.insertionSort r)).flatten) =
      (chunksBy g xs).map (List.insertionSort r) := by
  have hg2 : ((chunksBy g xs).map (List.insertionSort r)).map List.length = g := by
    rw [map_length_insertionSort]
    exact chunksBy_lengths g xs hsum
  nth_rewrite 1 [← hg2]
  exact chunksBy_of_flatten _

/-- Sorting already-sorted chunks changes nothing. -/
theorem map_insertionSort_idem {α} (r : α → α → Prop) [DecidableRel r]
    [IsTotal α r] [IsTrans α r] (cs : List (List α)) :
    ((cs.map (List.insertionSort r)).map (List.insertionSort r)) =
      cs.map (List.insertionSort r) := by
  rw [List.map_map]
  exact List.map_congr_left fun c _ =>
    (List.sorted_insertionSort r c).insertionSort_eq

/-- The in-place sort changes neither the shape, the indptr array, the
sorted flag, nor the dtype/location of any array, and keeps data null
exactly when it was null for wf matrices. -/
theorem csrSortInPlace_fields (m : CSRMatrix) :
    (CSRSort_ m).num_rows = m.num_rows ∧ (CSRSort_ m).num_cols = m.num_cols ∧
    (CSRSort_ m).indptr = m.indptr ∧ (CSRSort_ m).sorted = m.sorted ∧
    (CSRSort_ m).indices.bits = m.indices.bits ∧
    (CSRSort_ m).indices.ctx = m.indices.ctx ∧
    (CSRSort_ m).data.bits = m.data.bits ∧
    (CSRSort_ m).data.ctx = m.data.ctx := by
  by_cases hdn : IsNullArray m.data <;> simp [CSRSort_, hdn]


/-- For a wf matrix with a data array, the in-place sort keeps the data
array's length (hence keeps it non-null). -/
theorem csrSortInPlace_data_length (m : CSRMatrix) (h : wfCSR m = true)
    (hdn : ¬IsNullArray m.data = true) :
    (CSRSort_ m).data.values.length = m.data.values.length := by
  obtain ⟨-, -, -, -, -, -, hd, -⟩ := wf_parts h
  rcases hd with hnull | hlen
  · exact absurd hnull hdn
  have hsum := wf_gaps_sum h
  have hsum2 : (gaps m.indptr.values).sum =
      (m.indices.values.zip m.data.values).length := by
    rw [List.length_zip, hlen]
    omega
  simp only [CSRSort_]
  rw [if_neg hdn]
  simp only [List.length_flatten, List.map_map]
  rw [show (List.length ∘ List.map (Prod.snd : Int × Int → Int) ∘
      List.insertionSort pairLE) = List.length from funext fun c => by
    simp [(List.perm_insertionSort pairLE c).length_eq]]
  rw [chunksBy_lengths _ _ hsum2, hsum]
  omega

/-- The in-place sort preserves CheckValidity on wf matrices. -/
theorem csrSortInPlace_checkValidity (m : CSRMatrix) (h : wfCSR m = true) :
    (CSRSort_ m).CheckValidity = true := by
  have hcv := (wf_parts h).1
  obtain ⟨h1, h2, h3, h4, h5, h6, h7, h8⟩ := csrSortInPlace_fields m
  simp only [CSRMatrix.CheckValidity, Bool.and_eq_true, Bool.or_eq_true,
    beq_iff_eq] at hcv ⊢
  obtain ⟨⟨⟨⟨⟨hbits, hctx⟩, hdata⟩, hov1⟩, hov2⟩, hlen⟩ := hcv
  refine ⟨⟨⟨⟨⟨?_, ?_⟩, ?_⟩, ?_⟩, ?_⟩, ?_⟩
  · rw [h3, h5]
    exact hbits
  · rw [h3, h6]
    exact hctx
  · by_cases hdn : IsNullArray m.data = true
    · left
      have hsame : (CSRSort_ m).data = m.data := by
        simp [CSRSort_, hdn]
      rw [hsame]
      exact hdn
    · rcases hdata with hnull | ⟨hb2, hc2⟩
      · exact absurd hnull hdn
      · right
        rw [h3, h7, h8]
        exact ⟨hb2, hc2⟩
  · rw [h3, h1]
    exact hov1
  · rw [h3, h2]
    exact hov2
  · rw [h3, h1]
    exact hlen

/-- In-place sorting is idempotent on wf matrices. -/
theorem csrSortInPlace_idem (m : CSRMatrix) (h : wfCSR m = true) :
    CSRSort_ (CSRSort_ m) = CSRSort_ m := by
  have hsum := wf_gaps_sum h
  by_cases hdn : IsNullArray m.data = true
  · have key : ((chunksBy (gaps m.indptr.values)
        (((chunksBy (gaps m.indptr.values) m.indices.values).map
          (List.insertionSort (fun a b : Int => a ≤ b))).flatten)).map
        (List.insertionSort (fun a b : Int => a ≤ b))).flatten =
        ((chunksBy (gaps m.indptr.values) m.indices.values).map
          (List.insertionSort (fun a b : Int => a ≤ b))).flatten := by
      rw [chunksBy_flatten_sorted _ _ _ hsum, map_insertionSort_idem]
    simp [CSRSort_, hdn, key]
  · have hlen2 : (CSRSort_ m).data.values.length = m.data.values.length :=
      csrSortInPlace_data_length m h hdn
    have hdn2 : ¬IsNullArray (CSRSort_ m).data = true := by
      simp only [IsNullArray, List.isEmpty_iff] at hdn ⊢
      intro hcontra
      apply hdn
      rw [hcontra] at hlen2
      exact List.eq_nil_of_length_eq_zero hlen2.symm
    obtain ⟨-, -, -, -, -, -, hd, -⟩ := wf_parts h
    rcases hd with hnull | hlenid
    · exact absurd hnull hdn
    have hsum2 : (gaps m.indptr.values).sum =
        (m.indices.values.zip m.data.values).length := by
      rw [List.length_zip, hlenid]
      omega
    have hzip : (((((chunksBy (gaps m.indptr.values)
          (m.indices.values.zip m.data.values)).map
          (List.insertionSort pairLE)).map (List.map Prod.fst)).flatten).zip
        ((((chunksBy (gaps m.indptr.values)
          (m.indices.values.zip m.data.values)).map
          (List.insertionSort pairLE)).map (List.map Prod.snd)).flatten)) =
        ((chunksBy (gaps m.indptr.values)
          (m.indices.values.zip m.data.values)).map
          (List.insertionSort pairLE)).flatten :=
      zip_flatten_fst_snd _
    have key : chunksBy (gaps m.indptr.values)
        (((chunksBy (gaps m.indptr.values)
          (m.indices.values.zip m.data.values)).map
          (List.insertionSort pairLE)).flatten) =
        (chunksBy (gaps m.indptr.values)
          (m.indices.values.zip m.data.values)).map
          (List.insertionSort pairLE) :=
      chunksBy_flatten_sorted _ _ _ hsum2
    simp only [CSRSort_, List.map_map] at hdn2
    rw [if_neg hdn] at hdn2
    simp only [List.map_map] at hzip
    simp [CSRSort_, hdn, hdn2, hzip, key, map_insertionSort_idem,
      List.map_map]
    refine ⟨congrArg List.flatten (List.map_congr_left fun c _ => ?_),
      congrArg List.flatten (List.map_congr_left fun c _ => ?_)⟩ <;>
      simp [Function.comp_def,
        (List.sorted_insertionSort pairLE c).insertionSort_eq]

/-- C5: CSRSort is idempotent on valid matrices — sorting twice yields the
very same result as sorting once — and short-circuits, returning the input
itself unchanged, when the sorted flag is already set. -/
theorem csrSort_spec (m : CSRMatrix) (h : wfCSR m = true) :
    (∃ s, CSRSort m = some s ∧ CSRSort s = some s) ∧
    (m.sorted = true → CSRSort m = some m) := by
  have hcv := (wf_parts h).1
  have hmk : mkCSRMatrix m.num_rows m.num_cols m.indptr m.indices m.data
      m.sorted = some m := by
    show (if m.CheckValidity = true then some m else none) = some m
    rw [if_pos hcv]
  constructor
  · by_cases hs : m.sorted = true
    · refine ⟨m, ?_, ?_⟩ <;> simp [CSRSort, hs]
    · refine ⟨CSRSort_ m, ?_, ?_⟩
      · simp only [CSRSort]
        rw [if_neg hs, hmk]
        rfl
      · have hflag : (CSRSort_ m).sorted = m.sorted :=
          (csrSortInPlace_fields m).2.2.2.1
        have hcv2 := csrSortInPlace_checkValidity m h
        have hmk2 : mkCSRMatrix (CSRSort_ m).num_rows (CSRSort_ m).num_cols
            (CSRSort_ m).indptr (CSRSort_ m).indices (CSRSort_ m).data
            (CSRSort_ m).sorted = some (CSRSort_ m) := by
          show (if (CSRSort_ m).CheckValidity = true then some (CSRSort_ m)
            else none) = some (CSRSort_ m)
          rw [if_pos hcv2]
        simp only [CSRSort]
        rw [if_neg (by rw [hflag]; exact hs), hmk2]
        simp [csrSortInPlace_idem m h]
  · intro hs
    simp [CSRSort, hs]

/-- C5, instantiated at the example matrix. -/
theorem csrSort_spec_example :
    (∃ s, CSRSort exampleCsr = some s ∧ CSRSort s = some s) ∧
    (exampleCsr.sorted = true → CSRSort exampleCsr = some exampleCsr) :=
  csrSort_spec exampleCsr (by decide)

/-! ## Transpose infrastructure -/

/-- Membership in a consecutive integer range. -/
theorem mem_intRangeFrom :
    ∀ (n : Nat) (a x : Int), x ∈ intRangeFrom a n ↔ a ≤ x ∧ x < a + n := by
  intro n
  induction n with
  | zero =>
    intro a x
    simp only [intRangeFrom, List.not_mem_nil, false_iff]
    omega
  | succ n ih =>
    intro a x
    simp only [intRangeFrom, List.mem_cons, ih (a + 1)]
    omega

/-- A consecutive integer range has no duplicates. -/
theorem intRangeFrom_nodup : ∀ (n : Nat) (a : Int), (intRangeFrom a n).Nodup := by
  intro n
  induction n with
  | zero =>
    intro a
    simp [intRangeFrom]
  | succ n ih =>
    intro a
    simp only [intRangeFrom, List.nodup_cons, mem_intRangeFrom]
    exact ⟨by omega, ih (a + 1)⟩

/-- Gaps are translation invariant. -/
theorem gaps_map_add :
    ∀ (l : List Int) (k : Int), gaps (l.map (fun x => x + k)) = gaps l := by
  intro l
  induction l with
  | nil =>
    intro k
    rfl
  | cons x xs ih =>
    intro k
    cases xs with
    | nil => rfl
    | cons y ys =>
      simp only [List.map_cons, gaps]
      rw [show y + k - (x + k) = y - x by ring]
      have := ih k
      simp only [List.map_cons] at this
      rw [this]

/-- Prefix sums always start a list with 0. -/
theorem prefixSums_ne_nil : ∀ ns : List Nat, prefixSums ns ≠ [] := by
  intro ns
  cases ns <;> simp [prefixSums]

/-- Prefix sums start at 0. -/
theorem prefixSums_head :
    ∀ ns : List Nat, (prefixSums ns).head? = some 0 := by
  intro ns
  cases ns <;> rfl

/-- The gaps of the prefix sums are the original lengths. -/
theorem gaps_prefixSums : ∀ ns : List Nat, gaps (prefixSums ns) = ns := by
  intro ns
  induction ns with
  | nil => rfl
  | cons n ns ih =>
    cases hps : prefixSums ns with
    | nil => exact absurd hps (prefixSums_ne_nil ns)
    | cons p0 tail =>
      have hp0 : p0 = 0 := by
        have := prefixSums_head ns
        rw [hps] at this
        simpa using this
      subst hp0
      simp only [prefixSums, hps, List.map_cons, gaps, zero_add]
      have h1 : ((n : Int) - 0).toNat = n := by omega
      rw [h1]
      congr 1
      have := gaps_map_add (0 :: tail) (n : Int)
      simp only [List.map_cons, zero_add] at this
      rw [this, ← hps, ih]

/-- chunksBy produces one chunk per requested length. -/
theorem chunksBy_length :
    ∀ (ns : List Nat) (xs : List α), (chunksBy ns xs).length = ns.length := by
  intro ns
  induction ns with
  | nil =>
    intro xs
    rfl
  | cons n ns ih =>
    intro xs
    simp [chunksBy, ih]

/-- The number of gaps of a list. -/
theorem gaps_length : ∀ l : List Int, (gaps l).length = l.length - 1 := by
  intro l
  induction l with
  | nil => rfl
  | cons x xs ih =>
    cases xs with
    | nil => rfl
    | cons y ys =>
      simp only [gaps, List.length_cons] at ih ⊢
      omega

/-- Every element of a chunk is an element of the chunked list. -/
theorem chunksBy_mem :
    ∀ (ns : List Nat) (xs : List α) (c : List α) (x : α),
      c ∈ chunksBy ns xs → x ∈ c → x ∈ xs := by
  intro ns
  induction ns with
  | nil =>
    intro xs c x hc
    cases hc
  | cons n ns ih =>
    intro xs c x hc hx
    simp only [chunksBy, List.mem_cons] at hc
    rcases hc with rfl | hc
    · exact List.mem_of_mem_take hx
    · exact List.mem_of_mem_drop (ih _ _ _ hc hx)

/-- flatMap respects pointwise equality of the piece functions. -/
theorem flatMap_congr_mem {α β : Type} {l : List α} {f g : α → List β}
    (h : ∀ a ∈ l, f a = g a) : l.flatMap f = l.flatMap g := by
  simp only [List.flatMap_def]
  exact congrArg List.flatten (List.map_congr_left h)

/-- flatMap of the constantly-empty function is empty. -/
theorem flatMap_const_nil {α β : Type} :
    ∀ l : List α, (l.flatMap fun _ => ([] : List β)) = [] := by
  intro l
  induction l with
  | nil => rfl
  | cons x xs ih => simp [List.flatMap_cons, ih]

/-- Prepending one entry to the entry list prepends it (up to permutation)
to the concatenated buckets, when its key occurs once among the keys. -/
theorem flatMap_filter_cons (e : Int × Int × Int)
    (es : List (Int × Int × Int)) :
    ∀ keys : List Int, keys.Nodup → e.2.1 ∈ keys →
      (keys.flatMap fun c => (e :: es).filter (fun x => x.2.1 == c)).Perm
        (e :: keys.flatMap fun c => es.filter (fun x => x.2.1 == c)) := by
  intro keys
  induction keys with
  | nil =>
    intro _ h
    cases h
  | cons c ks ih =>
    intro hnd hmem
    simp only [List.nodup_cons] at hnd
    simp only [List.flatMap_cons]
    by_cases hc : e.2.1 = c
    · have h1 : (e :: es).filter (fun x => x.2.1 == c) =
          e :: es.filter (fun x => x.2.1 == c) := by
        simp [List.filter_cons, hc]
      have h2 : (ks.flatMap fun c2 => (e :: es).filter (fun x => x.2.1 == c2)) =
          ks.flatMap fun c2 => es.filter (fun x => x.2.1 == c2) := by
        apply flatMap_congr_mem
        intro c2 hc2
        have hne : ¬(e.2.1 = c2) := by
          rintro rfl
          rw [hc] at hc2
          exact hnd.1 hc2
        simp [List.filter_cons, hne]
      rw [h1, h2]
      exact List.Perm.refl _
    · have h1 : (e :: es).filter (fun x => x.2.1 == c) =
          es.filter (fun x => x.2.1 == c) := by
        simp [List.filter_cons, hc]
      rw [h1]
      have hmem2 : e.2.1 ∈ ks := by
        rcases List.mem_cons.mp hmem with h | h
        · exact absurd h hc
        · exact h
      refine (List.Perm.append_left _ (ih hnd.2 hmem2)).trans ?_
      exact List.perm_middle

/-- Scattering entries into per-key buckets and concatenating the buckets
permutes the entries, when the keys are distinct and cover every entry. -/
theorem bucket_flatMap_perm :
    ∀ (es : List (Int × Int × Int)) (keys : List Int), keys.Nodup →
      (∀ e ∈ es, e.2.1 ∈ keys) →
      (keys.flatMap fun c => es.filter (fun e => e.2.1 == c)).Perm es := by
  intro es
  induction es with
  | nil =>
    intro keys _ _
    simp only [List.filter_nil]
    rw [flatMap_const_nil]
  | cons e es ih =>
    intro keys hnd hb
    have step := flatMap_filter_cons e es keys hnd
      (hb e (List.mem_cons_self e es))
    refine step.trans (List.Perm.cons e (ih keys hnd ?_))
    intro x hx
    exact hb x (List.mem_cons_of_mem _ hx)

/-- Entries produced by labelling chunks: the row label is in range and the
(col, data) pair lies in one of the chunks. -/
theorem labelChunks_mem :
    ∀ (cs : List (List (Int × Int))) (a : Int) (e : Int × Int × Int),
      e ∈ labelChunks a cs →
        (a ≤ e.1 ∧ e.1 < a + cs.length) ∧ ∃ ch ∈ cs, (e.2.1, e.2.2) ∈ ch := by
  intro cs
  induction cs with
  | nil =>
    intro a e he
    cases he
  | cons ch cs ih =>
    intro a e he
    simp only [labelChunks, List.mem_append] at he
    rcases he with hh | ht
    · obtain ⟨p, hp, rfl⟩ := List.mem_map.mp hh
      refine ⟨⟨le_refl a, ?_⟩, ch, List.mem_cons_self ch cs, hp⟩
      simp only [List.length_cons]
      push_cast
      omega
    · obtain ⟨⟨hb1, hb2⟩, ch2, hc2, hm⟩ := ih (a + 1) e ht
      refine ⟨⟨by omega, ?_⟩, ch2, List.mem_cons_of_mem _ hc2, hm⟩
      simp only [List.length_cons]
      push_cast
      omega

/-- Labelling the chunks obtained by mapping over a consecutive range equals
flat-mapping over that range. -/
theorem labelChunks_map_range :
    ∀ (n : Nat) (a : Int) (F : Int → List (Int × Int)),
      labelChunks a ((intRangeFrom a n).map F) =
        (intRangeFrom a n).flatMap
          (fun c => (F c).map (fun p => (c, p.1, p.2))) := by
  intro n
  induction n with
  | zero =>
    intro a F
    rfl
  | succ n ih =>
    intro a F
    simp only [intRangeFrom, List.map_cons, labelChunks, List.flatMap_cons,
      ih (a + 1)]

/-- The rows of the transposed matrix are exactly the transpose buckets. -/
theorem rowChunksPairs_transpose (m : CSRMatrix) :
    rowChunksPairs (CSRTranspose m) = transposeBuckets m := by
  have hlenf : ((transposeBuckets m).map (List.map Prod.fst)).flatten.length =
      (transposeBuckets m).flatten.length := by
    simp [List.length_flatten, List.map_map, Function.comp_def]
  have hlens : ((transposeBuckets m).map (List.map Prod.snd)).flatten.length =
      (transposeBuckets m).flatten.length := by
    simp [List.length_flatten, List.map_map, Function.comp_def]
  have hzip : ((CSRTranspose m).indices.values).zip (effData (CSRTranspose m)) =
      (transposeBuckets m).flatten := by
    by_cases hE : IsNullArray (CSRTranspose m).data = true
    · have hsnil : ((transposeBuckets m).map (List.map Prod.snd)).flatten = [] := by
        simpa [CSRTranspose, IsNullArray, List.isEmpty_iff] using hE
      have hflatnil : (transposeBuckets m).flatten = [] := by
        apply List.eq_nil_of_length_eq_zero
        rw [← hlens, hsnil]
        rfl
      have hfnil : (CSRTranspose m).indices.values = [] := by
        show ((transposeBuckets m).map (List.map Prod.fst)).flatten = []
        apply List.eq_nil_of_length_eq_zero
        rw [hlenf, hflatnil]
        rfl
      rw [hfnil, hflatnil]
      simp
    · have heff : effData (CSRTranspose m) =
          ((transposeBuckets m).map (List.map Prod.snd)).flatten := by
        simp only [effData, hE, if_false, Bool.false_eq_true]
        rfl
      rw [heff]
      show (((transposeBuckets m).map (List.map Prod.fst)).flatten).zip
        (((transposeBuckets m).map (List.map Prod.snd)).flatten) = _
      exact zip_flatten_fst_snd _
  simp only [rowChunksPairs]
  rw [hzip]
  have hg : gaps (CSRTranspose m).indptr.values =
      (transposeBuckets m).map List.length := by
    show gaps (prefixSums ((transposeBuckets m).map List.length)) = _
    exact gaps_prefixSums _
  rw [hg]
  exact chunksBy_of_flatten _

/-- Every entry of a wf matrix has a column id in [0, num_cols). -/
theorem entriesOf_col_range (m : CSRMatrix) (h : wfCSR m = true) :
    ∀ e ∈ entriesOf m, 0 ≤ e.2.1 ∧ e.2.1 < m.num_cols := by
  intro e he
  obtain ⟨-, ch, hcs, hm⟩ := labelChunks_mem (rowChunksPairs m) 0 e he
  have hz := chunksBy_mem _ _ _ _ hcs hm
  have hmem := (List.of_mem_zip hz).1
  exact (wf_parts h).2.2.2.2.2.2.2 _ hmem

/-- Every entry's row id is a chunk index. -/
theorem entriesOf_row_range (m : CSRMatrix) :
    ∀ e ∈ entriesOf m,
      0 ≤ e.1 ∧ e.1 < ((rowChunksPairs m).length : Int) := by
  intro e he
  have hb := (labelChunks_mem (rowChunksPairs m) 0 e he).1
  refine ⟨hb.1, ?_⟩
  have := hb.2
  omega

/-- A wf matrix has one row chunk per row. -/
theorem rowChunksPairs_length (m : CSRMatrix) (h : wfCSR m = true) :
    ((rowChunksPairs m).length : Int) = m.num_rows := by
  have hlen := checkValidity_indptr_length (wf_parts h).1
  have hr := (wf_parts h).2.1
  simp only [rowChunksPairs, chunksBy_length, gaps_length]
  omega

/-- Transposing permutes the entry triples, swapping row and column. -/
theorem entriesOf_transpose_perm (m : CSRMatrix)
    (hcols : ∀ e ∈ entriesOf m, e.2.1 ∈ intRangeFrom 0 m.num_cols.toNat) :
    (entriesOf (CSRTranspose m)).Perm ((entriesOf m).map swapRC) := by
  show (labelChunks 0 (rowChunksPairs (CSRTranspose m))).Perm _
  rw [rowChunksPairs_transpose]
  unfold transposeBuckets
  rw [labelChunks_map_range]
  have hstep : ((intRangeFrom 0 m.num_cols.toNat).flatMap
      (fun c => (((entriesOf m).filter (fun e => e.2.1 == c)).map
        (fun e => (e.1, e.2.2))).map (fun p => (c, p.1, p.2)))) =
      ((intRangeFrom 0 m.num_cols.toNat).flatMap
        (fun c => (entriesOf m).filter (fun e => e.2.1 == c))).map swapRC := by
    rw [List.map_flatMap]
    apply flatMap_congr_mem
    intro c _
    rw [List.map_map]
    apply List.map_congr_left
    intro e he
    have hec : e.2.1 = c := by
      simpa using List.of_mem_filter he
    simp only [swapRC, Function.comp_apply]
    rw [hec]
  rw [hstep]
  exact (bucket_flatMap_perm (entriesOf m) _
    (intRangeFrom_nodup _ _) hcols).map swapRC

/-- C8: transposing swaps the shape, and transposing twice restores the
original multiset of (row, col, data) entry triples (the sorted flag
aside). -/
theorem csrTranspose_spec (m : CSRMatrix) (h : wfCSR m = true) :
    (CSRTranspose m).num_rows = m.num_cols ∧
    (CSRTranspose m).num_cols = m.num_rows ∧
    (CSRTranspose (CSRTranspose m)).num_rows = m.num_rows ∧
    (CSRTranspose (CSRTranspose m)).num_cols = m.num_cols ∧
    (↑(entriesOf (CSRTranspose (CSRTranspose m))) :
        Multiset (Int × Int × Int)) =
      (↑(entriesOf m) : Multiset (Int × Int × Int)) := by
  refine ⟨rfl, rfl, rfl, rfl, ?_⟩
  have hnc := (wf_parts h).2.2.1
  have hnr := (wf_parts h).2.1
  have hcols : ∀ e ∈ entriesOf m, e.2.1 ∈ intRangeFrom 0 m.num_cols.toNat := by
    intro e he
    have hc := entriesOf_col_range m h e he
    rw [mem_intRangeFrom]
    refine ⟨hc.1, ?_⟩
    rw [zero_add, Int.toNat_of_nonneg hnc]
    exact hc.2
  have h1 := entriesOf_transpose_perm m hcols
  have hrows : ∀ e ∈ entriesOf (CSRTranspose m),
      e.2.1 ∈ intRangeFrom 0 (CSRTranspose m).num_cols.toNat := by
    intro e he
    have hmem := (h1.mem_iff).mp he
    obtain ⟨e0, he0, rfl⟩ := List.mem_map.mp hmem
    have hr := entriesOf_row_range m e0 he0
    have hlen := rowChunksPairs_length m h
    rw [mem_intRangeFrom]
    show 0 ≤ e0.1 ∧ e0.1 < 0 + ((m.num_rows.toNat : Int))
    rw [zero_add, Int.toNat_of_nonneg hnr]
    exact ⟨hr.1, by omega⟩
  have h2 := entriesOf_transpose_perm (CSRTranspose m) hrows
  have hid : ((entriesOf m).map swapRC).map swapRC = entriesOf m := by
    rw [List.map_map]
    have hpt : ∀ e ∈ entriesOf m, (swapRC ∘ swapRC) e = e := by
      intro e _
      rcases e with ⟨a, b, c⟩
      rfl
    rw [List.map_congr_left hpt, List.map_id']
  have h3 : (entriesOf (CSRTranspose (CSRTranspose m))).Perm (entriesOf m) := by
    refine h2.trans ((h1.map swapRC).trans ?_)
    rw [hid]
  exact Multiset.coe_eq_coe.mpr h3

/-- C8, instantiated: the transpose of the example matrix has the swapped
shape. -/
theorem csrTranspose_spec_example :
    (CSRTranspose exampleCsr).num_rows = exampleCsr.num_cols :=
  (csrTranspose_spec exampleCsr (by decide)).1
